import Mathlib

/-!
Verification of the flexcal business-calendar engine (src/calendar.rs,
src/date_range.rs).

Modelling conventions:
* A `chrono::NaiveDate` is modelled as an `Int` day number (1970-01-01 = 0);
  `succ`/`pred` become `+ 1`/`- 1`, date subtraction becomes `Int` subtraction,
  and `weekday()` is computed from the day number modulo 7 (1970-01-01 was a
  Thursday).  chrono's year range limits are not modelled: day numbers are
  unbounded integers.
* `chrono::Weekday` is an enumeration of the seven weekdays;
  `num_days_from_monday` is `Weekday.num`.
* `HashSet` fields (`dow`, the observed off-day set) are modelled as lists with
  membership tests; insertion is cons.  Only membership is ever observed.
* Panics (`NaiveDate::from_ymd` on an invalid date, `unwrap` on `None`) are
  modelled with `Except Unit`, `.error ()` standing for a panic or for the
  divergence of an unbounded scan.
* The unbounded `while` scans of `Calendar::adjust_special_offday` take a fuel
  parameter; exhausted fuel (`none` from the scan, `.error ()` from the
  adjuster) corresponds to the scan still running after `fuel` steps.
* The bounded `while date.weekday() != dow` loops of `DateSpec::resolve`
  inspect at most 7 consecutive days, because there are only 7 weekdays; they
  are modelled with exactly 7 units of structural fuel, which is always enough.
-/

/-- `chrono::Weekday`. -/
inductive Weekday where
  | Mon | Tue | Wed | Thu | Fri | Sat | Sun
deriving DecidableEq

/-- `Weekday::num_days_from_monday` (Mon = 0 … Sun = 6). -/
def Weekday.num : Weekday → Int
  | .Mon => 0 | .Tue => 1 | .Wed => 2 | .Thu => 3 | .Fri => 4 | .Sat => 5 | .Sun => 6

/-- `NaiveDate::weekday()` of a day number (1970-01-01, day 0, was a Thursday). -/
def weekdayOf (z : Int) : Weekday :=
  let r := (z + 3) % 7
  if r = 0 then .Mon else if r = 1 then .Tue else if r = 2 then .Wed
  else if r = 3 then .Thu else if r = 4 then .Fri else if r = 5 then .Sat else .Sun

/-- Leap year test of the proleptic Gregorian calendar. -/
def isLeap (y : Int) : Bool :=
  (y % 4 == 0 && y % 100 != 0) || y % 400 == 0

/-- Number of days of month `m` of year `y`. -/
def daysInMonth (y m : Int) : Int :=
  if m = 2 then (if isLeap y then 29 else 28)
  else if m = 4 ∨ m = 6 ∨ m = 9 ∨ m = 11 then 30 else 31

/-- Day number of the civil date `y-m-d` (the standard days-from-civil
formula, with floor divisions written as Euclidean divisions, which agree
because all divisors are positive). -/
def toDays (y m d : Int) : Int :=
  let yy := if m ≤ 2 then y - 1 else y
  let mp := if m ≤ 2 then m + 9 else m - 3
  365 * yy + yy / 4 - yy / 100 + yy / 400 + (153 * mp + 2) / 5 + d - 1 - 719468

/-- Day-of-era (era = 400-year cycle) on which year-of-era `t` starts, in the
March-based calendar (day 0 of the era = March 1 of year-of-era 0). -/
def yearStartDoe (t : Int) : Int :=
  365 * t + t / 4 - t / 100 + t / 400

/-- Year-of-era of a day-of-era: a first approximation by dividing by 365,
then a correction step (exact on `[0, 146097)`). -/
def yoeOf (doe : Int) : Int :=
  let y0 := doe / 365
  if doe < yearStartDoe y0 then y0 - 1 else y0

/-- `NaiveDate::year()` of a day number: civil year containing the day. -/
def yearOf (z : Int) : Int :=
  let z' := z + 719468
  let era := z' / 146097
  let doe := z' % 146097
  let yoe := yoeOf doe
  let doy := doe - yearStartDoe yoe
  if 306 ≤ doy then 400 * era + yoe + 1 else 400 * era + yoe

/-- `chrono::naive::MIN_DATE` (January 1 of year −262144). -/
def minDate : Int := toDays (-262144) 1 1

/-- `chrono::naive::MAX_DATE` (December 31 of year 262143). -/
def maxDate : Int := toDays 262143 12 31

/-- `NaiveDate::from_ymd`, which panics on an invalid month/day combination
(the chrono year-range check is not modelled, see the header). -/
def fromYmd? (y m d : Int) : Except Unit Int :=
  if 1 ≤ m ∧ m ≤ 12 ∧ 1 ≤ d ∧ d ≤ daysInMonth y m then .ok (toDays y m d) else .error ()

/-- Auxiliary recursion for `intRange`. -/
def intRangeGo : Nat → Int → List Int
  | 0, _ => []
  | n + 1, k => k :: intRangeGo n (k + 1)

/-- The list `[s, s+1, …, e]` (empty when `e < s`): the Rust loop
`for year in s..(e + 1)`. -/
def intRange (s e : Int) : List Int := intRangeGo (e + 1 - s).toNat s

theorem mem_intRangeGo {x : Int} : ∀ {n : Nat} {k : Int},
    x ∈ intRangeGo n k ↔ k ≤ x ∧ x < k + n := by
  intro n
  induction n with
  | zero =>
      intro k
      simp only [intRangeGo, List.not_mem_nil, false_iff]
      push_cast
      omega
  | succ n ih =>
      intro k
      simp only [intRangeGo, List.mem_cons, ih]
      push_cast
      omega

theorem mem_intRange {x s e : Int} : x ∈ intRange s e ↔ s ≤ x ∧ x ≤ e := by
  unfold intRange
  rw [mem_intRangeGo]
  omega

theorem intRangeGo_pairwise : ∀ (n : Nat) (k : Int),
    (intRangeGo n k).Pairwise (· < ·) := by
  intro n
  induction n with
  | zero => intro k; simp [intRangeGo]
  | succ n ih =>
      intro k
      simp only [intRangeGo, List.pairwise_cons]
      refine ⟨fun x hx => ?_, ih (k + 1)⟩
      have := mem_intRangeGo.mp hx
      omega

theorem intRange_pairwise (s e : Int) : (intRange s e).Pairwise (· < ·) :=
  intRangeGo_pairwise _ s

/-! ### Arithmetic facts about the civil-calendar conversion -/

theorem yearStartDoe_mono {a b : Int} (h : a ≤ b) : yearStartDoe a ≤ yearStartDoe b := by
  unfold yearStartDoe
  omega

theorem yearStartDoe_step (t : Int) :
    365 ≤ yearStartDoe (t + 1) - yearStartDoe t ∧
      yearStartDoe (t + 1) - yearStartDoe t ≤ 366 := by
  unfold yearStartDoe
  omega

theorem yoe_correct {doe : Int} (h0 : 0 ≤ doe) (h1 : doe < 146097) :
    yearStartDoe (yoeOf doe) ≤ doe ∧ doe < yearStartDoe (yoeOf doe + 1) ∧
      0 ≤ yoeOf doe ∧ yoeOf doe ≤ 399 := by
  unfold yoeOf
  by_cases h : doe < yearStartDoe (doe / 365)
  · simp only [if_pos h]
    have e1 : doe / 365 - 1 + 1 = doe / 365 := by ring
    rw [e1]
    unfold yearStartDoe at h ⊢
    omega
  · simp only [if_neg h]
    unfold yearStartDoe at h ⊢
    omega

theorem yoe_unique {doe t : Int} (h0 : 0 ≤ doe) (h1 : doe < 146097)
    (hl : yearStartDoe t ≤ doe) (hu : doe < yearStartDoe (t + 1)) :
    yoeOf doe = t := by
  obtain ⟨c1, c2, _, _⟩ := yoe_correct h0 h1
  rcases lt_trichotomy (yoeOf doe) t with h | h | h
  · have : yoeOf doe + 1 ≤ t := by omega
    have := yearStartDoe_mono this
    omega
  · exact h
  · have : t + 1 ≤ yoeOf doe := by omega
    have := yearStartDoe_mono this
    omega

theorem yearOf_succ_ge (z : Int) : yearOf z ≤ yearOf (z + 1) := by
  simp only [yearOf]
  have hsplit := Int.ediv_add_emod (z + 719468) 146097
  have hsplit' := Int.ediv_add_emod (z + 1 + 719468) 146097
  have hm0 : 0 ≤ (z + 719468) % 146097 := Int.emod_nonneg _ (by norm_num)
  have hm1 : (z + 719468) % 146097 < 146097 := Int.emod_lt_of_pos _ (by norm_num)
  have hm0' : 0 ≤ (z + 1 + 719468) % 146097 := Int.emod_nonneg _ (by norm_num)
  have hm1' : (z + 1 + 719468) % 146097 < 146097 := Int.emod_lt_of_pos _ (by norm_num)
  by_cases hlast : (z + 719468) % 146097 = 146096
  · -- the last day of a 400-year era: the next day starts the next era
    have hera' : (z + 1 + 719468) / 146097 = (z + 719468) / 146097 + 1 := by omega
    have hdoe' : (z + 1 + 719468) % 146097 = 0 := by omega
    rw [hera', hdoe', hlast]
    have hy1 : yoeOf 146096 = 399 := by decide
    have hy2 : yoeOf 0 = 0 := by decide
    rw [hy1, hy2]
    have d1 : yearStartDoe 399 = 145731 := by decide
    have d2 : yearStartDoe 0 = 0 := by decide
    rw [d1, d2]
    omega
  · have hera' : (z + 1 + 719468) / 146097 = (z + 719468) / 146097 := by omega
    have hdoe' : (z + 1 + 719468) % 146097 = (z + 719468) % 146097 + 1 := by omega
    rw [hera', hdoe']
    set doe := (z + 719468) % 146097 with hdoe
    obtain ⟨a1, a2, a3, a4⟩ := yoe_correct hm0 hm1
    obtain ⟨b1, b2, b3, b4⟩ := @yoe_correct (doe + 1) (by omega) (by omega)
    have hle : yoeOf doe ≤ yoeOf (doe + 1) := by
      by_contra hcon
      push_neg at hcon
      have : yoeOf (doe + 1) + 1 ≤ yoeOf doe := by omega
      have := yearStartDoe_mono this
      omega
    have hge : yoeOf (doe + 1) ≤ yoeOf doe + 1 := by
      by_contra hcon
      push_neg at hcon
      have h2 : yoeOf doe + 1 + 1 ≤ yoeOf (doe + 1) := by omega
      have h3 := yearStartDoe_mono h2
      have h4 := yearStartDoe_step (yoeOf doe + 1)
      omega
    rcases eq_or_lt_of_le hle with heq | hlt
    · rw [← heq]
      split <;> split <;> omega
    · have heq : yoeOf (doe + 1) = yoeOf doe + 1 := by omega
      rw [heq]
      split <;> split <;> omega

theorem yearOf_mono {z1 z2 : Int} (h : z1 ≤ z2) : yearOf z1 ≤ yearOf z2 :=
  @Int.le_induction (fun t => yearOf z1 ≤ yearOf t) z1 (le_refl _)
    (fun n _ ih => ih.trans (yearOf_succ_ge n)) z2 h

theorem yearOf_toDays_Jan1 (Y : Int) : yearOf (toDays Y 1 1) = Y := by
  have htd : toDays Y 1 1 =
      365 * (Y - 1) + (Y - 1) / 4 - (Y - 1) / 100 + (Y - 1) / 400 + 306 - 719468 := by
    unfold toDays
    norm_num
  set w := Y - 1 with hw
  set q := w / 400 with hq
  set t := w % 400 with ht
  have hqt : 400 * q + t = w := Int.ediv_add_emod w 400
  have ht0 : 0 ≤ t := Int.emod_nonneg _ (by norm_num)
  have ht1 : t < 400 := Int.emod_lt_of_pos _ (by norm_num)
  have key : toDays Y 1 1 + 719468 = 146097 * q + (yearStartDoe t + 306) := by
    rw [htd]
    unfold yearStartDoe
    omega
  have hu0 : 0 ≤ yearStartDoe t + 306 := by unfold yearStartDoe; omega
  have hu1 : yearStartDoe t + 306 < 146097 := by unfold yearStartDoe; omega
  have hera : (toDays Y 1 1 + 719468) / 146097 = q := by omega
  have hdoe : (toDays Y 1 1 + 719468) % 146097 = yearStartDoe t + 306 := by omega
  have hyoe : yoeOf (yearStartDoe t + 306) = t := by
    have hst := yearStartDoe_step t
    exact yoe_unique hu0 hu1 (by omega) (by omega)
  simp only [yearOf]
  rw [hera, hdoe, hyoe, if_pos (by omega)]
  omega

theorem yearOf_toDays_Dec31 (Y : Int) : yearOf (toDays Y 12 31) = Y := by
  have htd : toDays Y 12 31 =
      365 * Y + Y / 4 - Y / 100 + Y / 400 + 305 - 719468 := by
    unfold toDays
    norm_num
    omega
  set q := Y / 400 with hq
  set t := Y % 400 with ht
  have hqt : 400 * q + t = Y := Int.ediv_add_emod Y 400
  have ht0 : 0 ≤ t := Int.emod_nonneg _ (by norm_num)
  have ht1 : t < 400 := Int.emod_lt_of_pos _ (by norm_num)
  have key : toDays Y 12 31 + 719468 = 146097 * q + (yearStartDoe t + 305) := by
    rw [htd]
    unfold yearStartDoe
    omega
  have hu0 : 0 ≤ yearStartDoe t + 305 := by unfold yearStartDoe; omega
  have hu1 : yearStartDoe t + 305 < 146097 := by unfold yearStartDoe; omega
  have hera : (toDays Y 12 31 + 719468) / 146097 = q := by omega
  have hdoe : (toDays Y 12 31 + 719468) % 146097 = yearStartDoe t + 305 := by omega
  have hyoe : yoeOf (yearStartDoe t + 305) = t := by
    have hst := yearStartDoe_step t
    exact yoe_unique hu0 hu1 (by omega) (by omega)
  simp only [yearOf]
  rw [hera, hdoe, hyoe, if_neg (by omega)]
  omega

/-! ### Weekday facts -/

theorem weekdayOf_num (z : Int) : (weekdayOf z).num = (z + 3) % 7 := by
  have h0 : 0 ≤ (z + 3) % 7 := Int.emod_nonneg _ (by norm_num)
  have h1 : (z + 3) % 7 < 7 := Int.emod_lt_of_pos _ (by norm_num)
  simp only [weekdayOf]
  split_ifs <;> simp only [Weekday.num] <;> omega

theorem Weekday.num_inj {a b : Weekday} (h : a.num = b.num) : a = b := by
  cases a <;> cases b <;> simp_all [Weekday.num]

theorem Weekday.num_lb (a : Weekday) : 0 ≤ a.num := by cases a <;> decide

theorem Weekday.num_ub (a : Weekday) : a.num < 7 := by cases a <;> decide

theorem weekdayOf_congr {z1 z2 : Int} (h : (z1 + 3) % 7 = (z2 + 3) % 7) :
    weekdayOf z1 = weekdayOf z2 := by
  apply Weekday.num_inj
  rw [weekdayOf_num, weekdayOf_num, h]

/-! ### The data model of `src/calendar.rs` -/

/-- `AdjustmentPolicy`. -/
inductive AdjustmentPolicy where
  | Prev | Next | Closest | NoAdjustment
deriving DecidableEq

/-- `DateSpec` (the `description` string fields are kept; `month` is the
1–12 month number, i.e. `chrono::Month::number_from_month`). -/
inductive DateSpec where
  | SpecificDate (date : Int) (description : String)
  | DayOfMonth (month day : Int) (observed : AdjustmentPolicy) (description : String)
      (validSince validUntil : Int)
  | NthDayOccurance (month : Int) (dow : Weekday) (offset : Int)
      (observed : AdjustmentPolicy) (description : String) (validSince validUntil : Int)

/-- The loop `while date.weekday() != *dow { date = date.pred() }`, with
structural fuel; 7 units are always enough (`backToDowAux_spec`). -/
def backToDowAux : Nat → Weekday → Int → Int
  | 0, _, d => d
  | n + 1, w, d => if weekdayOf d = w then d else backToDowAux n w (d - 1)

/-- The backward weekday scan of the negative-offset branch. -/
def backToDow (w : Weekday) (d : Int) : Int := backToDowAux 7 w d

/-- The loop `while date.weekday() != *dow { date = date.succ() }`. -/
def fwdToDowAux : Nat → Weekday → Int → Int
  | 0, _, d => d
  | n + 1, w, d => if weekdayOf d = w then d else fwdToDowAux n w (d + 1)

/-- The forward weekday scan of the nonnegative-offset branch. -/
def fwdToDow (w : Weekday) (d : Int) : Int := fwdToDowAux 7 w d

/-- Last day of month `m` of year `y`: `from_ymd(year, 12, 31)` when
`month_num == 12`, else `from_ymd(year, month_num + 1, 1).pred()`. -/
def monthEnd (y m : Int) : Int :=
  if m = 12 then toDays y 12 31 else toDays y (m + 1) 1 - 1

/-- One year's occurrence of an `NthDayOccurance` rule: the per-year body of
the `for year in s..(e + 1)` loop (both the negative- and the
nonnegative-offset branch, including the `off` week-stepping loops, which run
`|offset| − 1` times). -/
def nthDayInYear (m : Int) (w : Weekday) (offset : Int) (y : Int) : Int :=
  if offset < 0 then
    backToDow w (monthEnd y m) - 7 * ((-(offset + 1)).toNat : Int)
  else
    fwdToDow w (toDays y m 1) + 7 * ((offset - 1).toNat : Int)

/-- `NaiveDate::from_ymd` applied to every year of the list (the date-pushing
loop of the `DayOfMonth` branch); a panic anywhere fails the whole call. -/
def mapYmd : List Int → Int → Int → Except Unit (List Int)
  | [], _, _ => .ok []
  | y :: ys, m, d =>
    match fromYmd? y m d with
    | .error e => .error e
    | .ok v =>
      match mapYmd ys m d with
      | .error e => .error e
      | .ok rest => .ok (v :: rest)

/-- `DateSpec::resolve(start, end)` (`stop` stands for the Rust `end`). -/
def DateSpec.resolve (spec : DateSpec) (start stop : Int) :
    Except Unit (Option (List Int × AdjustmentPolicy)) :=
  match spec with
  | .SpecificDate date _ =>
      if date < start ∨ stop < date then .ok none
      else .ok (some ([date], .NoAdjustment))
  | .DayOfMonth month day observed _ validSince validUntil =>
      if validSince > stop ∨ validUntil < start then .ok none
      else
        let s := yearOf (if validSince < start then start else validSince)
        let e := yearOf (if validUntil < stop then validUntil else stop)
        match mapYmd (intRange s e) month day with
        | .error er => .error er
        | .ok dates => .ok (some (dates, observed))
  | .NthDayOccurance month dw offset observed _ validSince validUntil =>
      if validSince > stop ∨ validUntil < start then .ok none
      else
        let s := yearOf (if validSince < start then start else validSince)
        let e := yearOf (if validUntil < stop then validUntil else stop)
        .ok (some ((intRange s e).map (nthDayInYear month dw offset), observed))

/-- `Calendar`.  The `description`, `public` and `inherits` fields play no
role in any modelled operation and are omitted. -/
structure Calendar where
  dow : List Weekday
  exclude : List DateSpec

/-- The closure `is_blocked` of `Calendar::adjust_special_offday`. -/
def blockedB (dow : List Weekday) (offdays : List Int) (x : Int) : Bool :=
  !(decide (weekdayOf x ∈ dow)) || decide (x ∈ offdays)

/-- The `Next` scan `while is_blocked(actual) { actual = actual.succ() }`,
with fuel (`none` = still scanning after `fuel` steps). -/
def nextFreeF (dow : List Weekday) (offdays : List Int) : Nat → Int → Option Int
  | 0, _ => none
  | fuel + 1, d =>
      if blockedB dow offdays d then nextFreeF dow offdays fuel (d + 1) else some d

/-- The `Prev` scan, stepping backward. -/
def prevFreeF (dow : List Weekday) (offdays : List Int) : Nat → Int → Option Int
  | 0, _ => none
  | fuel + 1, d =>
      if blockedB dow offdays d then prevFreeF dow offdays fuel (d - 1) else some d

/-- `Calendar::adjust_special_offday` (given the calendar's `dow` set).
`.error ()` models a scan that has not finished within `fuel` steps (for
`Closest`, the `unwrap` of a sub-scan that has not finished). -/
def adjustSpecialOffday (dow : List Weekday) (offdays : List Int) (fuel : Nat)
    (date : Int) (policy : AdjustmentPolicy) : Except Unit (Option Int) :=
  match policy with
  | .Next =>
      match nextFreeF dow offdays fuel date with
      | some x => .ok (some x)
      | none => .error ()
  | .Prev =>
      match prevFreeF dow offdays fuel date with
      | some x => .ok (some x)
      | none => .error ()
  | .Closest =>
      match prevFreeF dow offdays fuel date, nextFreeF dow offdays fuel date with
      | some p, some n => .ok (some (if date - p < n - date then p else n))
      | _, _ => .error ()
  | .NoAdjustment =>
      .ok (if blockedB dow offdays date then none else some date)

/-- Flattening of the resolved `(dates, policy)` groups into single
occurrences, in rule order and within-rule date order: the nested
`for (dates, policy) … for date` loops of `adjust_special_offdays`. -/
def flatPairs : List (List Int × AdjustmentPolicy) → List (Int × AdjustmentPolicy)
  | [] => []
  | (ds, p) :: rest => ds.map (fun d => (d, p)) ++ flatPairs rest

/-- The incremental fold of `Calendar::adjust_special_offdays`: each kept
occurrence is inserted into the observed set seen by later occurrences. -/
def foldOccs (dow : List Weekday) (fuel : Nat) :
    List (Int × AdjustmentPolicy) → List Int → Except Unit (List Int)
  | [], observed => .ok observed
  | (d, pol) :: rest, observed =>
      match adjustSpecialOffday dow observed fuel d pol with
      | .error e => .error e
      | .ok none => foldOccs dow fuel rest observed
      | .ok (some x) => foldOccs dow fuel rest (x :: observed)

/-- `Calendar::adjust_special_offdays`. -/
def adjustSpecialOffdays (dow : List Weekday) (fuel : Nat)
    (groups : List (List Int × AdjustmentPolicy)) : Except Unit (List Int) :=
  foldOccs dow fuel (flatPairs groups) []

/-- The `map(resolve) … filter(is_some) … map(unwrap)` pipeline of
`Calendar::get_special_offdays`. -/
def resolveAll : List DateSpec → Int → Int → Except Unit (List (List Int × AdjustmentPolicy))
  | [], _, _ => .ok []
  | r :: rest, start, stop =>
      match r.resolve start stop with
      | .error e => .error e
      | .ok none => resolveAll rest start stop
      | .ok (some g) =>
          match resolveAll rest start stop with
          | .error e => .error e
          | .ok gs => .ok (g :: gs)

/-- `Calendar::get_special_offdays`. -/
def Calendar.getSpecialOffdays (cal : Calendar) (fuel : Nat) (start stop : Int) :
    Except Unit (List Int) :=
  match resolveAll cal.exclude start stop with
  | .error e => .error e
  | .ok groups => adjustSpecialOffdays cal.dow fuel groups

/-- `Calendar::is_offday` (the `||` short-circuits, so the off-day set is only
computed when the weekday test fails). -/
def Calendar.isOffday (cal : Calendar) (fuel : Nat) (date : Int) : Except Unit Bool :=
  if decide (weekdayOf date ∈ cal.dow) = false then .ok true
  else
    match cal.getSpecialOffdays fuel date date with
    | .error e => .error e
    | .ok offdays => .ok (decide (date ∈ offdays))

/-- `Calendar::date_range(from, to)` (`lo`, `hi` stand for `from`, `to`):
off-days of `[lo, hi]`, iteration over `DateRange::new(lo - 14, hi.succ())`,
the weekday/off-day filter, then the `*x >= from` filter. -/
def Calendar.dateRange (cal : Calendar) (fuel : Nat) (lo hi : Int) :
    Except Unit (List Int) :=
  match cal.getSpecialOffdays fuel lo hi with
  | .error e => .error e
  | .ok offdays =>
      .ok (((intRange (lo - 14) hi).filter
              (fun x => decide (weekdayOf x ∈ cal.dow) && !(decide (x ∈ offdays)))).filter
            (fun x => decide (lo ≤ x)))

/-- Modelled from the spec (for the refinement claim): iterate the unwidened
range `[from, to]` and keep the dates whose weekday is in the mask and that
are not in `get_special_offdays(from, to)`. -/
def Calendar.dateRangeUnwidened (cal : Calendar) (fuel : Nat) (lo hi : Int) :
    Except Unit (List Int) :=
  match cal.getSpecialOffdays fuel lo hi with
  | .error e => .error e
  | .ok offdays =>
      .ok ((intRange lo hi).filter
            (fun x => decide (weekdayOf x ∈ cal.dow) && !(decide (x ∈ offdays))))

/-! ### The data model of `src/date_range.rs` (`stop` stands for `end`) -/

/-- `DateRange`. -/
structure DateRange where
  start : Int
  stop : Int

/-- `DateRange::new`. -/
def DateRange.new (start stop : Int) : DateRange := ⟨start, stop⟩

/-- `DateRangeIterator`. -/
structure DateRangeIterator where
  cur : Int
  stop : Int

/-- `DateRangeIterator::next`: one step, returning the yielded item and the
successor state. -/
def DateRangeIterator.next (it : DateRangeIterator) : Option Int × DateRangeIterator :=
  if it.cur = it.stop then (none, it)
  else (some it.cur, ⟨it.cur + 1, it.stop⟩)

/-- `IntoIterator for DateRange`. -/
def DateRange.intoIter (dr : DateRange) : DateRangeIterator := ⟨dr.start, dr.stop⟩

/-! ### Properties of the adjustment scans -/

theorem nextFreeF_ge {dow : List Weekday} {offs : List Int} :
    ∀ {f : Nat} {d n : Int}, nextFreeF dow offs f d = some n → d ≤ n := by
  intro f
  induction f with
  | zero => intro d n h; simp [nextFreeF] at h
  | succ f ih =>
      intro d n h
      simp only [nextFreeF] at h
      by_cases hb : blockedB dow offs d
      · rw [if_pos hb] at h
        have := ih h
        omega
      · rw [if_neg hb] at h
        injection h with h
        omega

theorem prevFreeF_le {dow : List Weekday} {offs : List Int} :
    ∀ {f : Nat} {d p : Int}, prevFreeF dow offs f d = some p → p ≤ d := by
  intro f
  induction f with
  | zero => intro d p h; simp [prevFreeF] at h
  | succ f ih =>
      intro d p h
      simp only [prevFreeF] at h
      by_cases hb : blockedB dow offs d
      · rw [if_pos hb] at h
        have := ih h
        omega
      · rw [if_neg hb] at h
        injection h with h
        omega

theorem nextFreeF_free {dow : List Weekday} {offs : List Int} :
    ∀ {f : Nat} {d n : Int}, nextFreeF dow offs f d = some n →
      blockedB dow offs n = false := by
  intro f
  induction f with
  | zero => intro d n h; simp [nextFreeF] at h
  | succ f ih =>
      intro d n h
      simp only [nextFreeF] at h
      by_cases hb : blockedB dow offs d
      · rw [if_pos hb] at h
        exact ih h
      · rw [if_neg hb] at h
        injection h with h
        rw [← h]
        simpa using hb

theorem prevFreeF_free {dow : List Weekday} {offs : List Int} :
    ∀ {f : Nat} {d p : Int}, prevFreeF dow offs f d = some p →
      blockedB dow offs p = false := by
  intro f
  induction f with
  | zero => intro d p h; simp [prevFreeF] at h
  | succ f ih =>
      intro d p h
      simp only [prevFreeF] at h
      by_cases hb : blockedB dow offs d
      · rw [if_pos hb] at h
        exact ih h
      · rw [if_neg hb] at h
        injection h with h
        rw [← h]
        simpa using hb

theorem nextFreeF_visited {dow : List Weekday} {offs : List Int} :
    ∀ {f : Nat} {d n : Int}, nextFreeF dow offs f d = some n →
      ∀ q, d ≤ q → q < n → blockedB dow offs q = true := by
  intro f
  induction f with
  | zero => intro d n h; simp [nextFreeF] at h
  | succ f ih =>
      intro d n h q hq1 hq2
      simp only [nextFreeF] at h
      by_cases hb : blockedB dow offs d
      · rw [if_pos hb] at h
        rcases eq_or_lt_of_le hq1 with rfl | hlt
        · exact hb
        · exact ih h q (by omega) hq2
      · rw [if_neg hb] at h
        injection h with h
        omega
  
theorem prevFreeF_visited {dow : List Weekday} {offs : List Int} :
    ∀ {f : Nat} {d p : Int}, prevFreeF dow offs f d = some p →
      ∀ q, p < q → q ≤ d → blockedB dow offs q = true := by
  intro f
  induction f with
  | zero => intro d p h; simp [prevFreeF] at h
  | succ f ih =>
      intro d p h q hq1 hq2
      simp only [prevFreeF] at h
      by_cases hb : blockedB dow offs d
      · rw [if_pos hb] at h
        rcases eq_or_lt_of_le hq2 with rfl | hlt
        · exact hb
        · exact ih h q hq1 (by omega)
      · rw [if_neg hb] at h
        injection h with h
        omega

/-- C1: under the `Closest` policy (with both sub-scans finishing on the given
fuel, yielding the `Prev` result `p` and the `Next` result `n`), the returned
date's distance in calendar days from the raw date is at most the distance of
`p` and at most the distance of `n`, and on a tie the `Next` result `n` (the
later date) is returned. -/
theorem closest_within_prev_next (dow : List Weekday) (offs : List Int) (fuel : Nat)
    (d p n : Int)
    (hp : prevFreeF dow offs fuel d = some p)
    (hn : nextFreeF dow offs fuel d = some n) :
    ∃ c, adjustSpecialOffday dow offs fuel d .Closest = .ok (some c) ∧
      (c - d).natAbs ≤ (p - d).natAbs ∧ (c - d).natAbs ≤ (n - d).natAbs ∧
      ((p - d).natAbs = (n - d).natAbs → c = n) := by
  have hpd := prevFreeF_le hp
  have hnd := nextFreeF_ge hn
  refine ⟨if d - p < n - d then p else n, ?_, ?_, ?_, ?_⟩
  · simp only [adjustSpecialOffday]
    rw [hp, hn]
  · split_ifs with h <;> omega
  · split_ifs with h <;> omega
  · intro he
    split_ifs with h <;> omega

/-- Concrete instance of `closest_within_prev_next`: Mon–Fri mask, no prior
off-days, raw date 1970-01-03 (a Saturday, day 2); `Prev` gives day 1
(Friday), `Next` gives day 4 (Monday), and `Closest` picks day 1. -/
theorem closest_within_prev_next_witness :
    ∃ c, adjustSpecialOffday [.Mon, .Tue, .Wed, .Thu, .Fri] [] 10 2 .Closest = .ok (some c) ∧
      (c - 2).natAbs ≤ ((1 : Int) - 2).natAbs ∧ (c - 2).natAbs ≤ ((4 : Int) - 2).natAbs ∧
      (((1 : Int) - 2).natAbs = ((4 : Int) - 2).natAbs → c = 4) :=
  closest_within_prev_next [.Mon, .Tue, .Wed, .Thu, .Fri] [] 10 2 1 4 (by rfl) (by rfl)

/-! ### Concrete calendars used by the concrete scenarios -/

/-- The calendar of the `check_double_observed` test: Mon–Fri weekday mask,
"25 Dec observed Next" and "26 Dec observed Next" (default validity window). -/
def xmasCalendar : Calendar :=
  { dow := [.Mon, .Tue, .Wed, .Thu, .Fri]
    exclude :=
      [ .DayOfMonth 12 25 .Next "Christmas" minDate maxDate
      , .DayOfMonth 12 26 .Next "Boxing Day" minDate maxDate ] }

/-- Mon–Fri weekday mask with a single "31 Dec observed Next" rule. -/
def newYearsEveCalendar : Calendar :=
  { dow := [.Mon, .Tue, .Wed, .Thu, .Fri]
    exclude := [ .DayOfMonth 12 31 .Next "New Years Eve" minDate maxDate ] }

/-- C4: on `xmasCalendar`, 2021-12-27 and 2021-12-28 are off days (the
observed Monday/Tuesday for the Saturday Christmas and the Sunday Boxing Day
of 2021), while 2021-12-24 (Friday) is not. -/
theorem double_observed_offdays :
    xmasCalendar.isOffday 16 (toDays 2021 12 27) = .ok true ∧
      xmasCalendar.isOffday 16 (toDays 2021 12 28) = .ok true ∧
      xmasCalendar.isOffday 16 (toDays 2021 12 24) = .ok false :=
  ⟨rfl, rfl, rfl⟩

/-- C9 (the code side): a `DateRangeIterator` whose start is strictly after
its end yields `start` as its first item instead of an empty sequence,
because `next` only tests `cur == end`. -/
theorem date_range_iterator_start_after_end_yields (start stop : Int) (h : stop < start) :
    ((DateRange.new start stop).intoIter.next).1 = some start := by
  have hne : start ≠ stop := by omega
  simp [DateRange.new, DateRange.intoIter, DateRangeIterator.next, hne]

/-- Concrete instance of `date_range_iterator_start_after_end_yields` at
`start = 1 > 0 = end`. -/
theorem date_range_iterator_start_after_end_yields_witness :
    ((DateRange.new 1 0).intoIter.next).1 = some 1 :=
  date_range_iterator_start_after_end_yields 1 0 (by norm_num)

/-- C8 (the code side): with an empty weekday mask there is no guard — every
day is blocked, so for every amount of fuel the `Next`, `Prev` and `Closest`
scans of `adjust_special_offday` are still running (the code loops without
bound instead of failing fast). -/
theorem empty_mask_scans_never_finish (fuel : Nat) (offs : List Int) (d : Int) :
    adjustSpecialOffday [] offs fuel d .Next = .error () ∧
      adjustSpecialOffday [] offs fuel d .Prev = .error () ∧
      adjustSpecialOffday [] offs fuel d .Closest = .error () := by
  have hb : ∀ x : Int, blockedB [] offs x = true := by
    intro x
    simp [blockedB]
  have hnext : ∀ (f : Nat) (x : Int), nextFreeF [] offs f x = none := by
    intro f
    induction f with
    | zero => intro x; rfl
    | succ f ih =>
        intro x
        simp only [nextFreeF, hb, if_true]
        exact ih _
  have hprev : ∀ (f : Nat) (x : Int), prevFreeF [] offs f x = none := by
    intro f
    induction f with
    | zero => intro x; rfl
    | succ f ih =>
        intro x
        simp only [prevFreeF, hb, if_true]
        exact ih _
  refine ⟨?_, ?_, ?_⟩ <;> simp [adjustSpecialOffday, hnext, hprev]

/-- C7 (counterexample): a Feb-29 `DayOfMonth` rule valid over 2020–2021,
resolved over 2020–2021, panics (`from_ymd` on 2021-02-29) and fails the
whole call; it does not return just the 2020 occurrence. -/
theorem feb29_rule_fails_whole_resolve :
    (DateSpec.DayOfMonth 2 29 .Next "" (toDays 2020 1 1) (toDays 2021 12 31)).resolve
        (toDays 2020 1 1) (toDays 2021 12 31) = .error () ∧
      ¬ (DateSpec.DayOfMonth 2 29 .Next "" (toDays 2020 1 1) (toDays 2021 12 31)).resolve
          (toDays 2020 1 1) (toDays 2021 12 31) =
        .ok (some ([toDays 2020 2 29], .Next)) := by
  have h1 : (DateSpec.DayOfMonth 2 29 .Next "" (toDays 2020 1 1) (toDays 2021 12 31)).resolve
      (toDays 2020 1 1) (toDays 2021 12 31) = .error () := rfl
  refine ⟨h1, ?_⟩
  rw [h1]
  simp

theorem mapYmd_error {m day : Int} :
    ∀ {l : List Int}, (∃ y ∈ l, fromYmd? y m day = .error ()) →
      mapYmd l m day = .error () := by
  intro l
  induction l with
  | nil => rintro ⟨y, hy, _⟩; simp at hy
  | cons a l ih =>
      rintro ⟨y, hy, hbad⟩
      simp only [mapYmd]
      rcases List.mem_cons.mp hy with rfl | hmem
      · rw [hbad]
      · cases hfa : fromYmd? a m day with
        | error e => rfl
        | ok v => rw [ih ⟨y, hmem, hbad⟩]

/-- C7 (amended): when the month/day combination of a `DayOfMonth` rule is
invalid for some year of the resolved range, `resolve` panics and the whole
call fails — no occurrence of any year is produced. -/
theorem dayofmonth_invalid_year_panics (m day : Int) (obs : AdjustmentPolicy)
    (desc : String) (vs vu ws we : Int)
    (hsome : ¬ (vs > we ∨ vu < ws))
    (hbad : ∃ y ∈ intRange (yearOf (if vs < ws then ws else vs))
        (yearOf (if vu < we then vu else we)), fromYmd? y m day = .error ()) :
    (DateSpec.DayOfMonth m day obs desc vs vu).resolve ws we = .error () := by
  simp only [DateSpec.resolve]
  rw [if_neg hsome, mapYmd_error hbad]

/-- Concrete instance of `dayofmonth_invalid_year_panics`: the Feb-29 rule
over 2020–2021 (2021 is not a leap year). -/
theorem dayofmonth_invalid_year_panics_witness :
    (DateSpec.DayOfMonth 2 29 .Next "x" (toDays 2020 1 1) (toDays 2021 12 31)).resolve
        (toDays 2020 1 1) (toDays 2021 12 31) = .error () :=
  dayofmonth_invalid_year_panics 2 29 .Next "x" (toDays 2020 1 1) (toDays 2021 12 31)
    (toDays 2020 1 1) (toDays 2021 12 31) (by decide)
    ⟨2021, by decide, rfl⟩

/-- C3 (counterexample): on `newYearsEveCalendar` with the window
2023-01-01 … 2023-01-06, the raw occurrence 2022-12-31 falls before `from`
and its `Next`-adjusted observed date 2023-01-02 lands inside the window, yet
2023-01-02 is returned by `date_range` — the occurrence is *not* excluded,
because rule resolution over `[from, to]` never emits the previous year's raw
date and the 14-day iteration widening cannot affect the off-day set. -/
theorem raw_before_window_not_excluded :
    toDays 2022 12 31 < toDays 2023 1 1 ∧
      adjustSpecialOffday newYearsEveCalendar.dow [] 16 (toDays 2022 12 31) .Next =
        .ok (some (toDays 2023 1 2)) ∧
      (toDays 2023 1 1 ≤ toDays 2023 1 2 ∧ toDays 2023 1 2 ≤ toDays 2023 1 6) ∧
      newYearsEveCalendar.dateRange 16 (toDays 2023 1 1) (toDays 2023 1 6) =
        .ok [toDays 2023 1 2, toDays 2023 1 3, toDays 2023 1 4,
             toDays 2023 1 5, toDays 2023 1 6] :=
  ⟨by decide, rfl, ⟨by decide, by decide⟩, rfl⟩

/-- C3 (amended): an occurrence whose raw date falls before `from` but inside
`from`'s year is still emitted by rule resolution over `[from, to]`, so its
observed date inside `[from, to]` is excluded: on `xmasCalendar` with the
window 2021-12-27 … 2021-12-31, the raws 2021-12-25 and 2021-12-26 lie before
`from`, their observed dates are 2021-12-27 and 2021-12-28, and `date_range`
returns only 2021-12-29, -30, -31. -/
theorem raw_before_window_same_year_excluded :
    toDays 2021 12 25 < toDays 2021 12 27 ∧
      xmasCalendar.getSpecialOffdays 16 (toDays 2021 12 27) (toDays 2021 12 31) =
        .ok [toDays 2021 12 28, toDays 2021 12 27] ∧
      xmasCalendar.dateRange 16 (toDays 2021 12 27) (toDays 2021 12 31) =
        .ok [toDays 2021 12 29, toDays 2021 12 30, toDays 2021 12 31] :=
  ⟨by decide, rfl, rfl⟩

/-- C5: a `DayOfMonth` rule resolves to `None` exactly when its (nonempty)
validity window does not meet the (nonempty) query window; and the July-4
rule valid 2020-01-01 … 2021-12-31, resolved against 2019-01-01 …
2022-12-31, emits exactly the 2020 and the 2021 occurrence. -/
theorem dayofmonth_resolve_none_iff :
    (∀ (m day : Int) (obs : AdjustmentPolicy) (desc : String) (vs vu ws we : Int),
        vs ≤ vu → ws ≤ we →
        ((DateSpec.DayOfMonth m day obs desc vs vu).resolve ws we = .ok none ↔
          ¬ ∃ x : Int, vs ≤ x ∧ x ≤ vu ∧ ws ≤ x ∧ x ≤ we)) ∧
      (DateSpec.DayOfMonth 7 4 .NoAdjustment "" (toDays 2020 1 1)
          (toDays 2021 12 31)).resolve (toDays 2019 1 1) (toDays 2022 12 31) =
        .ok (some ([toDays 2020 7 4, toDays 2021 7 4], .NoAdjustment)) := by
  constructor
  · intro m day obs desc vs vu ws we h1 h2
    simp only [DateSpec.resolve]
    by_cases hc : vs > we ∨ vu < ws
    · rw [if_pos hc]
      simp only [true_iff, eq_self_iff_true]
      push_neg
      intro x
      omega
    · rw [if_neg hc]
      apply iff_of_false
      · cases hm : mapYmd (intRange (yearOf (if vs < ws then ws else vs))
            (yearOf (if vu < we then vu else we))) m day with
        | error e => simp
        | ok ds => simp
      · push_neg at hc
        exact not_not_intro ⟨max vs ws, by omega, by omega, by omega, by omega⟩
  · rfl

/-- Concrete instance of the `None`-iff of `dayofmonth_resolve_none_iff`:
validity 2020–2021 against the disjoint window 2023–2024. -/
theorem dayofmonth_resolve_none_iff_witness :
    (DateSpec.DayOfMonth 7 4 .NoAdjustment "" (toDays 2020 1 1)
        (toDays 2021 12 31)).resolve (toDays 2023 1 1) (toDays 2024 12 31) = .ok none ↔
      ¬ ∃ x : Int, toDays 2020 1 1 ≤ x ∧ x ≤ toDays 2021 12 31 ∧
          toDays 2023 1 1 ≤ x ∧ x ≤ toDays 2024 12 31 :=
  dayofmonth_resolve_none_iff.1 7 4 .NoAdjustment "" (toDays 2020 1 1)
    (toDays 2021 12 31) (toDays 2023 1 1) (toDays 2024 12 31) (by decide) (by decide)

/-! ### The 14-day widening is a no-op -/

theorem sorted_int_list_ext {l1 l2 : List Int}
    (h1 : l1.Pairwise (· < ·)) (h2 : l2.Pairwise (· < ·))
    (hm : ∀ x, x ∈ l1 ↔ x ∈ l2) : l1 = l2 := by
  haveI : IsAntisymm Int (· < ·) := @IsAsymm.isAntisymm Int (· < ·) inferInstance
  have hn1 : l1.Nodup := h1.imp ne_of_lt
  have hn2 : l2.Nodup := h2.imp ne_of_lt
  exact List.eq_of_perm_of_sorted ((List.perm_ext_iff_of_nodup hn1 hn2).mpr hm) h1 h2

/-- C10: `date_range` equals the unwidened computation — iterating
`[from − 14, to]` and then filtering `≥ from` returns exactly the dates of
`[from, to]` that pass the per-date weekday/off-day filter, because the
off-day set is computed from `[from, to]` alone. -/
theorem date_range_widening_noop (cal : Calendar) (fuel : Nat) (lo hi : Int)
    (_h : lo ≤ hi) :
    cal.dateRange fuel lo hi = cal.dateRangeUnwidened fuel lo hi := by
  unfold Calendar.dateRange Calendar.dateRangeUnwidened
  cases hg : cal.getSpecialOffdays fuel lo hi with
  | error e => rfl
  | ok offs =>
      dsimp only
      congr 1
      apply sorted_int_list_ext
      · exact (intRange_pairwise _ _).sublist
          ((List.filter_sublist _).trans (List.filter_sublist _))
      · exact (intRange_pairwise _ _).sublist (List.filter_sublist _)
      · intro x
        simp only [List.mem_filter, mem_intRange, decide_eq_true_eq]
        constructor
        · rintro ⟨⟨⟨hx1, hx2⟩, hx3⟩, hx4⟩
          exact ⟨⟨hx4, hx2⟩, hx3⟩
        · rintro ⟨⟨hx1, hx2⟩, hx3⟩
          exact ⟨⟨⟨by omega, hx2⟩, hx3⟩, hx1⟩

/-- Concrete instance of `date_range_widening_noop` on `xmasCalendar`. -/
theorem date_range_widening_noop_witness :
    xmasCalendar.dateRange 16 (toDays 2021 12 27) (toDays 2021 12 31) =
      xmasCalendar.dateRangeUnwidened 16 (toDays 2021 12 27) (toDays 2021 12 31) :=
  date_range_widening_noop xmasCalendar 16 (toDays 2021 12 27) (toDays 2021 12 31)
    (by decide)

/-! ### The negative-offset branch of `NthDayOccurance` -/

theorem weekdayOf_eq_iff {d : Int} {w : Weekday} :
    weekdayOf d = w ↔ (d + 3) % 7 = w.num := by
  constructor
  · intro h
    rw [← h, weekdayOf_num]
  · intro h
    exact Weekday.num_inj (by rw [weekdayOf_num, h])

theorem backToDowAux_spec (w : Weekday) : ∀ (n : Nat) (d : Int),
    (((d + 3) % 7 - w.num) % 7).toNat < n →
    weekdayOf (backToDowAux n w d) = w ∧
      backToDowAux n w d = d - ((d + 3) % 7 - w.num) % 7 := by
  intro n
  induction n with
  | zero =>
      intro d h
      omega
  | succ n ih =>
      intro d h
      have hw0 := Weekday.num_lb w
      have hw1 := Weekday.num_ub w
      have hm0 : 0 ≤ (d + 3) % 7 := Int.emod_nonneg _ (by norm_num)
      have hm1 : (d + 3) % 7 < 7 := Int.emod_lt_of_pos _ (by norm_num)
      simp only [backToDowAux]
      by_cases hw : weekdayOf d = w
      · rw [if_pos hw]
        have hnum := weekdayOf_eq_iff.mp hw
        exact ⟨hw, by omega⟩
      · rw [if_neg hw]
        have hnum : ¬ (d + 3) % 7 = w.num := fun hc => hw (weekdayOf_eq_iff.mpr hc)
        have hm0' : 0 ≤ (d - 1 + 3) % 7 := Int.emod_nonneg _ (by norm_num)
        have hm1' : (d - 1 + 3) % 7 < 7 := Int.emod_lt_of_pos _ (by norm_num)
        obtain ⟨g1, g2⟩ := ih (d - 1) (by omega)
        exact ⟨g1, by omega⟩

theorem backToDow_spec (w : Weekday) (d : Int) :
    weekdayOf (backToDow w d) = w ∧ d - 6 ≤ backToDow w d ∧ backToDow w d ≤ d := by
  have hm0 : 0 ≤ ((d + 3) % 7 - w.num) % 7 := Int.emod_nonneg _ (by norm_num)
  have hm1 : ((d + 3) % 7 - w.num) % 7 < 7 := Int.emod_lt_of_pos _ (by norm_num)
  obtain ⟨h1, h2⟩ := backToDowAux_spec w 7 d (by omega)
  unfold backToDow
  exact ⟨h1, by omega, by omega⟩

theorem nthDayInYear_neg_spec (m : Int) (w : Weekday) (offset : Int) (y : Int)
    (hoff : offset < 0) :
    weekdayOf (nthDayInYear m w offset y) = w ∧
      monthEnd y m - 7 * (-offset) < nthDayInYear m w offset y ∧
      nthDayInYear m w offset y ≤ monthEnd y m - 7 * (-offset - 1) := by
  unfold nthDayInYear
  rw [if_pos hoff]
  obtain ⟨h1, h2, h3⟩ := backToDow_spec w (monthEnd y m)
  have hk : ((-(offset + 1)).toNat : Int) = -offset - 1 := by omega
  refine ⟨?_, by omega, by omega⟩
  rw [@weekdayOf_congr _ (backToDow w (monthEnd y m)) (by omega)]
  exact h1

theorem intRange_self (s : Int) : intRange s s = [s] := by
  unfold intRange
  have h : (s + 1 - s).toNat = 1 := by omega
  rw [h]
  rfl

theorem toDays_Jan1_lt_Dec31 (Y : Int) : toDays Y 1 1 < toDays Y 12 31 := by
  have h := yearStartDoe_step (Y - 1)
  have e : Y - 1 + 1 = Y := by ring
  rw [e] at h
  unfold toDays yearStartDoe at *
  norm_num at *
  omega

/-- C6: for a negative offset `N`, an `NthDayOccurance` rule whose validity
window covers year `Y`, resolved against the window `[Y-01-01, Y-12-31]`,
emits exactly one date `D`: the weekday-`w` day reached from the last day of
the month by the backward scan and `|N| − 1` further 7-day steps, i.e. the
unique weekday-`w` date in `(monthEnd − 7·|N|, monthEnd − 7·(|N|−1)]`; and in
particular `NthDayOccurance{month=January, weekday=Monday, offset=−1}`
resolves for 2024 to 2024-01-29. -/
theorem nth_weekday_negative_offset (m : Int) (w : Weekday) (offset : Int)
    (obs : AdjustmentPolicy) (desc : String) (vs vu Y : Int)
    (hoff : offset < 0)
    (hvs : vs ≤ toDays Y 1 1) (hvu : toDays Y 12 31 ≤ vu) :
    (∃ D, (DateSpec.NthDayOccurance m w offset obs desc vs vu).resolve
          (toDays Y 1 1) (toDays Y 12 31) = .ok (some ([D], obs)) ∧
        weekdayOf D = w ∧
        monthEnd Y m - 7 * (-offset) < D ∧ D ≤ monthEnd Y m - 7 * (-offset - 1)) ∧
      nthDayInYear 1 .Mon (-1) 2024 = toDays 2024 1 29 := by
  have hlt := toDays_Jan1_lt_Dec31 Y
  constructor
  · refine ⟨nthDayInYear m w offset Y, ?_, ?_⟩
    · simp only [DateSpec.resolve]
      rw [if_neg (by omega)]
      have hs : (if vs < toDays Y 1 1 then toDays Y 1 1 else vs) = toDays Y 1 1 := by
        split_ifs <;> omega
      have he : (if vu < toDays Y 12 31 then vu else toDays Y 12 31) = toDays Y 12 31 := by
        split_ifs <;> omega
      rw [hs, he, yearOf_toDays_Jan1, yearOf_toDays_Dec31, intRange_self]
      rfl
    · exact nthDayInYear_neg_spec m w offset Y hoff
  · rfl

/-- Concrete instance of `nth_weekday_negative_offset`: January, Monday,
offset −1, year 2024 (last Monday of January 2024). -/
theorem nth_weekday_negative_offset_witness :
    (∃ D, (DateSpec.NthDayOccurance 1 .Mon (-1) .NoAdjustment "" minDate maxDate).resolve
          (toDays 2024 1 1) (toDays 2024 12 31) = .ok (some ([D], .NoAdjustment)) ∧
        weekdayOf D = .Mon ∧
        monthEnd 2024 1 - 7 * (-(-1 : Int)) < D ∧
        D ≤ monthEnd 2024 1 - 7 * (-(-1 : Int) - 1)) ∧
      nthDayInYear 1 .Mon (-1) 2024 = toDays 2024 1 29 :=
  nth_weekday_negative_offset 1 .Mon (-1) .NoAdjustment "" minDate maxDate 2024
    (by norm_num) (by decide) (by decide)

/-! ### Simulation: a smaller occurrence list blocks fewer dates.

`foldOccs` over a sublist of the occurrence list, started from a set that
blocks no more dates, produces a set that blocks no more dates.  This is the
key fact behind C2: the off-day set of the one-day window `[d, d]` used by
`is_offday` cannot block a date that the off-day set of the enclosing window
`[from, to]` used by `date_range` leaves free. -/

theorem blockedB_cons_of {dow : List Weekday} {offs : List Int} {a x : Int}
    (h : blockedB dow offs x = true) : blockedB dow (a :: offs) x = true := by
  simp only [blockedB, Bool.or_eq_true, Bool.not_eq_true', decide_eq_false_iff_not,
    decide_eq_true_eq, List.mem_cons] at h ⊢
  tauto

theorem blockedB_cons_self {dow : List Weekday} {offs : List Int} {a : Int} :
    blockedB dow (a :: offs) a = true := by
  simp [blockedB]

/-- Insertion of a kept occurrence into the observed set (the `Some` branch
of the fold in `adjust_special_offdays`). -/
def pushObs : Option Int → List Int → List Int
  | none, offs => offs
  | some a, offs => a :: offs

theorem pushObs_mono {dow : List Weekday} {offs : List Int} {x : Int}
    (r : Option Int) (h : blockedB dow offs x = true) :
    blockedB dow (pushObs r offs) x = true := by
  cases r with
  | none => exact h
  | some a => exact blockedB_cons_of h

theorem nextFreeF_sim {dow : List Weekday} {offs1 offs2 : List Int}
    (himp : ∀ x : Int, blockedB dow offs1 x = true → blockedB dow offs2 x = true) :
    ∀ {f : Nat} {d n2 : Int}, nextFreeF dow offs2 f d = some n2 →
      ∃ n1, nextFreeF dow offs1 f d = some n1 ∧ n1 ≤ n2 ∧
        (n1 = n2 ∨ blockedB dow offs2 n1 = true) := by
  intro f
  induction f with
  | zero => intro d n2 h; simp [nextFreeF] at h
  | succ f ih =>
      intro d n2 h
      simp only [nextFreeF] at h ⊢
      cases hb2 : blockedB dow offs2 d with
      | false =>
          rw [hb2] at h
          simp only [if_neg Bool.false_ne_true] at h
          injection h with h
          have hb1 : blockedB dow offs1 d = false := by
            cases hb1 : blockedB dow offs1 d with
            | false => rfl
            | true => rw [himp d hb1] at hb2; cases hb2
          rw [hb1]
          exact ⟨d, by simp, by omega, Or.inl h⟩
      | true =>
          rw [hb2] at h
          simp only [if_pos rfl] at h
          have hge := nextFreeF_ge h
          cases hb1 : blockedB dow offs1 d with
          | true =>
              obtain ⟨n1, h1, hle, hor⟩ := ih h
              exact ⟨n1, by simp [h1], hle, hor⟩
          | false =>
              exact ⟨d, by simp, by omega, Or.inr hb2⟩

theorem prevFreeF_sim {dow : List Weekday} {offs1 offs2 : List Int}
    (himp : ∀ x : Int, blockedB dow offs1 x = true → blockedB dow offs2 x = true) :
    ∀ {f : Nat} {d p2 : Int}, prevFreeF dow offs2 f d = some p2 →
      ∃ p1, prevFreeF dow offs1 f d = some p1 ∧ p2 ≤ p1 ∧
        (p1 = p2 ∨ blockedB dow offs2 p1 = true) := by
  intro f
  induction f with
  | zero => intro d p2 h; simp [prevFreeF] at h
  | succ f ih =>
      intro d p2 h
      simp only [prevFreeF] at h ⊢
      cases hb2 : blockedB dow offs2 d with
      | false =>
          rw [hb2] at h
          simp only [if_neg Bool.false_ne_true] at h
          injection h with h
          have hb1 : blockedB dow offs1 d = false := by
            cases hb1 : blockedB dow offs1 d with
            | false => rfl
            | true => rw [himp d hb1] at hb2; cases hb2
          rw [hb1]
          exact ⟨d, by simp, by omega, Or.inl h⟩
      | true =>
          rw [hb2] at h
          simp only [if_pos rfl] at h
          have hle := prevFreeF_le h
          cases hb1 : blockedB dow offs1 d with
          | true =>
              obtain ⟨p1, h1, hge, hor⟩ := ih h
              exact ⟨p1, by simp [h1], hge, hor⟩
          | false =>
              exact ⟨d, by simp, by omega, Or.inr hb2⟩

theorem adjust_sim {dow : List Weekday} {offs1 offs2 : List Int} {fuel : Nat}
    {d : Int} {pol : AdjustmentPolicy} {r2 : Option Int}
    (himp : ∀ x : Int, blockedB dow offs1 x = true → blockedB dow offs2 x = true)
    (h2 : adjustSpecialOffday dow offs2 fuel d pol = .ok r2) :
    ∃ r1, adjustSpecialOffday dow offs1 fuel d pol = .ok r1 ∧
      ∀ x : Int, blockedB dow (pushObs r1 offs1) x = true →
        blockedB dow (pushObs r2 offs2) x = true := by
  cases pol with
  | Next =>
      simp only [adjustSpecialOffday] at h2 ⊢
      cases hn2 : nextFreeF dow offs2 fuel d with
      | none => rw [hn2] at h2; simp at h2
      | some n2 =>
          rw [hn2] at h2
          injection h2 with h2
          subst h2
          obtain ⟨n1, hn1, hle, hor⟩ := nextFreeF_sim himp hn2
          refine ⟨some n1, by rw [hn1], ?_⟩
          intro x hx
          rcases (by simpa [blockedB, pushObs] using hx :
              (weekdayOf x ∉ dow ∨ (x = n1 ∨ x ∈ offs1))) with hw | rfl | hm
          · simp [blockedB, hw]
          · rcases hor with rfl | hb
            · exact blockedB_cons_self
            · exact blockedB_cons_of hb
          · exact blockedB_cons_of (himp x (by simp [blockedB, hm]))
  | Prev =>
      simp only [adjustSpecialOffday] at h2 ⊢
      cases hp2 : prevFreeF dow offs2 fuel d with
      | none => rw [hp2] at h2; simp at h2
      | some p2 =>
          rw [hp2] at h2
          injection h2 with h2
          subst h2
          obtain ⟨p1, hp1, hge, hor⟩ := prevFreeF_sim himp hp2
          refine ⟨some p1, by rw [hp1], ?_⟩
          intro x hx
          rcases (by simpa [blockedB, pushObs] using hx :
              (weekdayOf x ∉ dow ∨ (x = p1 ∨ x ∈ offs1))) with hw | rfl | hm
          · simp [blockedB, hw]
          · rcases hor with rfl | hb
            · exact blockedB_cons_self
            · exact blockedB_cons_of hb
          · exact blockedB_cons_of (himp x (by simp [blockedB, hm]))
  | NoAdjustment =>
      simp only [adjustSpecialOffday] at h2 ⊢
      injection h2 with h2
      subst h2
      cases hb1 : blockedB dow offs1 d with
      | true =>
          rw [if_pos rfl]
          refine ⟨none, rfl, ?_⟩
          intro x hx
          exact pushObs_mono _ (himp x hx)
      | false =>
          rw [if_neg Bool.false_ne_true]
          refine ⟨some d, rfl, ?_⟩
          intro x hx
          rcases (by simpa [blockedB, pushObs] using hx :
              (weekdayOf x ∉ dow ∨ (x = d ∨ x ∈ offs1))) with hw | hc | hm
          · simp [blockedB, hw]
          · subst hc
            cases hb2 : blockedB dow offs2 x with
            | true => rw [if_pos rfl]; exact hb2
            | false => rw [if_neg Bool.false_ne_true]; exact blockedB_cons_self
          · exact pushObs_mono _ (himp x (by simp [blockedB, hm]))
  | Closest =>
      simp only [adjustSpecialOffday] at h2 ⊢
      cases hp2 : prevFreeF dow offs2 fuel d with
      | none => rw [hp2] at h2; simp at h2
      | some p2 =>
          cases hn2 : nextFreeF dow offs2 fuel d with
          | none => rw [hp2, hn2] at h2; simp at h2
          | some n2 =>
              rw [hp2, hn2] at h2
              injection h2 with h2
              subst h2
              obtain ⟨p1, hp1, hpge, hpor⟩ := prevFreeF_sim himp hp2
              obtain ⟨n1, hn1, hnle, hnor⟩ := nextFreeF_sim himp hn2
              rw [hp1, hn1]
              refine ⟨some (if d - p1 < n1 - d then p1 else n1), rfl, ?_⟩
              intro x hx
              rcases (by simpa [blockedB, pushObs] using hx :
                  (weekdayOf x ∉ dow ∨
                    (x = (if d - p1 < n1 - d then p1 else n1) ∨ x ∈ offs1))) with hw | hc | hm
              · simp [blockedB, hw]
              · subst hc
                by_cases hif1 : d - p1 < n1 - d
                · rw [if_pos hif1]
                  rcases hpor with rfl | hb
                  · have hif2 : d - p1 < n2 - d := by omega
                    rw [if_pos hif2]
                    exact blockedB_cons_self
                  · exact blockedB_cons_of hb
                · rw [if_neg hif1]
                  rcases hnor with rfl | hb
                  · have hif2 : ¬ (d - p2 < n1 - d) := by omega
                    rw [if_neg hif2]
                    exact blockedB_cons_self
                  · exact blockedB_cons_of hb
              · exact blockedB_cons_of (himp x (by simp [blockedB, hm]))

theorem foldOccs_sim {dow : List Weekday} {fuel : Nat} :
    ∀ {L1 L2 : List (Int × AdjustmentPolicy)}, L1.Sublist L2 →
      ∀ {obs1 obs2 S2 : List Int},
        (∀ x : Int, blockedB dow obs1 x = true → blockedB dow obs2 x = true) →
        foldOccs dow fuel L2 obs2 = .ok S2 →
        ∃ S1, foldOccs dow fuel L1 obs1 = .ok S1 ∧
          (∀ x : Int, blockedB dow S1 x = true → blockedB dow S2 x = true) := by
  intro L1 L2 hsub
  induction hsub with
  | slnil =>
      intro obs1 obs2 S2 himp h2
      simp only [foldOccs] at h2 ⊢
      injection h2 with h2
      subst h2
      exact ⟨obs1, rfl, himp⟩
  | cons a hsub ih =>
      intro obs1 obs2 S2 himp h2
      obtain ⟨da, pola⟩ := a
      simp only [foldOccs] at h2
      cases ha : adjustSpecialOffday dow obs2 fuel da pola with
      | error e => rw [ha] at h2; simp at h2
      | ok r2 =>
          rw [ha] at h2
          cases r2 with
          | none => exact ih himp h2
          | some x2 =>
              exact ih (fun x hx => blockedB_cons_of (himp x hx)) h2
  | cons₂ a hsub ih =>
      intro obs1 obs2 S2 himp h2
      obtain ⟨da, pola⟩ := a
      simp only [foldOccs] at h2 ⊢
      cases ha2 : adjustSpecialOffday dow obs2 fuel da pola with
      | error e => rw [ha2] at h2; simp at h2
      | ok r2 =>
          rw [ha2] at h2
          obtain ⟨r1, ha1, himp'⟩ := adjust_sim himp ha2
          rw [ha1]
          cases r1 with
          | none =>
              cases r2 with
              | none => exact ih himp' h2
              | some x2 => exact ih himp' h2
          | some x1 =>
              cases r2 with
              | none => exact ih himp' h2
              | some x2 => exact ih himp' h2

/-! ### Narrowing the resolution window to a single day -/

theorem mapYmd_ok_mem {m day Y : Int} :
    ∀ {l : List Int} {out : List Int}, mapYmd l m day = .ok out → Y ∈ l →
      ∃ dy, fromYmd? Y m day = .ok dy ∧ dy ∈ out := by
  intro l
  induction l with
  | nil => intro out _ hmem; simp at hmem
  | cons a l ih =>
      intro out h hmem
      simp only [mapYmd] at h
      cases hfa : fromYmd? a m day with
      | error e => rw [hfa] at h; simp at h
      | ok v =>
          rw [hfa] at h
          cases hml : mapYmd l m day with
          | error e => rw [hml] at h; simp at h
          | ok rest =>
              rw [hml] at h
              injection h with h
              subst h
              rcases List.mem_cons.mp hmem with rfl | hmem'
              · exact ⟨v, hfa, List.mem_cons_self _ _⟩
              · obtain ⟨dy, h1, h2⟩ := ih hml hmem'
                exact ⟨dy, h1, List.mem_cons_of_mem _ h2⟩

/-- The occurrence pairs contributed by one resolved rule. -/
def contribPairs : Option (List Int × AdjustmentPolicy) → List (Int × AdjustmentPolicy)
  | none => []
  | some (ds, p) => ds.map (fun x => (x, p))

theorem resolve_narrow {r : DateSpec} {lo hi d : Int}
    {v2 : Option (List Int × AdjustmentPolicy)}
    (hlo : lo ≤ d) (hhi : d ≤ hi)
    (h2 : r.resolve lo hi = .ok v2) :
    ∃ v1, r.resolve d d = .ok v1 ∧ (contribPairs v1).Sublist (contribPairs v2) := by
  cases r with
  | SpecificDate v desc =>
      simp only [DateSpec.resolve] at h2 ⊢
      by_cases hd : v < d ∨ d < v
      · rw [if_pos hd]
        exact ⟨none, rfl, by simp [contribPairs]⟩
      · rw [if_neg hd]
        have hv : v = d := by omega
        rw [if_neg (by omega)] at h2
        injection h2 with h2
        subst h2
        exact ⟨some ([v], .NoAdjustment), rfl, List.Sublist.refl _⟩
  | DayOfMonth m day obs desc vs vu =>
      simp only [DateSpec.resolve] at h2 ⊢
      by_cases hn1 : vs > d ∨ vu < d
      · rw [if_pos hn1]
        exact ⟨none, rfl, by simp [contribPairs]⟩
      · rw [if_neg hn1]
        push_neg at hn1
        rw [if_neg (by omega)] at h2
        have hsd : (if vs < d then d else vs) = d := by split_ifs <;> omega
        have hed : (if vu < d then vu else d) = d := by split_ifs <;> omega
        rw [hsd, hed, intRange_self]
        have hws : (if vs < lo then lo else vs) ≤ d := by split_ifs <;> omega
        have hwe : d ≤ (if vu < hi then vu else hi) := by split_ifs <;> omega
        cases hm2 : mapYmd (intRange (yearOf (if vs < lo then lo else vs))
            (yearOf (if vu < hi then vu else hi))) m day with
        | error e => rw [hm2] at h2; simp at h2
        | ok ds2 =>
            rw [hm2] at h2
            injection h2 with h2
            subst h2
            have hYmem : yearOf d ∈ intRange (yearOf (if vs < lo then lo else vs))
                (yearOf (if vu < hi then vu else hi)) :=
              mem_intRange.mpr ⟨yearOf_mono hws, yearOf_mono hwe⟩
            obtain ⟨dy, hdy, hdymem⟩ := mapYmd_ok_mem hm2 hYmem
            have hm1 : mapYmd [yearOf d] m day = .ok [dy] := by
              simp only [mapYmd]
              rw [hdy]
            rw [hm1]
            refine ⟨some ([dy], obs), rfl, ?_⟩
            simp only [contribPairs, List.map]
            rw [List.singleton_sublist]
            exact List.mem_map.mpr ⟨dy, hdymem, rfl⟩
  | NthDayOccurance m w off obs desc vs vu =>
      simp only [DateSpec.resolve] at h2 ⊢
      by_cases hn1 : vs > d ∨ vu < d
      · rw [if_pos hn1]
        exact ⟨none, rfl, by simp [contribPairs]⟩
      · rw [if_neg hn1]
        push_neg at hn1
        rw [if_neg (by omega)] at h2
        injection h2 with h2
        subst h2
        have hsd : (if vs < d then d else vs) = d := by split_ifs <;> omega
        have hed : (if vu < d then vu else d) = d := by split_ifs <;> omega
        rw [hsd, hed, intRange_self]
        have hws : (if vs < lo then lo else vs) ≤ d := by split_ifs <;> omega
        have hwe : d ≤ (if vu < hi then vu else hi) := by split_ifs <;> omega
        have hYmem : yearOf d ∈ intRange (yearOf (if vs < lo then lo else vs))
            (yearOf (if vu < hi then vu else hi)) :=
          mem_intRange.mpr ⟨yearOf_mono hws, yearOf_mono hwe⟩
        refine ⟨some ([nthDayInYear m w off (yearOf d)], obs), rfl, ?_⟩
        simp only [contribPairs, List.map]
        rw [List.singleton_sublist]
        exact List.mem_map.mpr ⟨nthDayInYear m w off (yearOf d),
          List.mem_map.mpr ⟨yearOf d, hYmem, rfl⟩, rfl⟩

theorem resolveAll_narrow :
    ∀ {ex : List DateSpec} {lo hi d : Int} {gs2 : List (List Int × AdjustmentPolicy)},
      lo ≤ d → d ≤ hi → resolveAll ex lo hi = .ok gs2 →
      ∃ gs1, resolveAll ex d d = .ok gs1 ∧ (flatPairs gs1).Sublist (flatPairs gs2) := by
  intro ex
  induction ex with
  | nil =>
      intro lo hi d gs2 _ _ h
      simp only [resolveAll] at h ⊢
      injection h with h
      subst h
      exact ⟨[], rfl, List.Sublist.refl _⟩
  | cons r ex ih =>
      intro lo hi d gs2 hlo hhi h2
      simp only [resolveAll] at h2 ⊢
      cases hr2 : r.resolve lo hi with
      | error e => rw [hr2] at h2; simp at h2
      | ok v2 =>
          rw [hr2] at h2
          obtain ⟨v1, hr1, hsub⟩ := resolve_narrow hlo hhi hr2
          rw [hr1]
          cases v1 with
          | none =>
              cases v2 with
              | none => exact ih hlo hhi h2
              | some g2 =>
                  cases hrest : resolveAll ex lo hi with
                  | error e => rw [hrest] at h2; simp at h2
                  | ok gs2' =>
                      rw [hrest] at h2
                      injection h2 with h2
                      subst h2
                      obtain ⟨gs1, hg1, hsub1⟩ := ih hlo hhi hrest
                      refine ⟨gs1, hg1, ?_⟩
                      obtain ⟨ds2, p2⟩ := g2
                      simp only [flatPairs]
                      exact hsub1.trans (List.sublist_append_right _ _)
          | some g1 =>
              cases v2 with
              | none =>
                  obtain ⟨gs1', hg1, hsub1⟩ := ih hlo hhi h2
                  rw [hg1]
                  refine ⟨g1 :: gs1', rfl, ?_⟩
                  obtain ⟨ds1, p1⟩ := g1
                  simp only [flatPairs, contribPairs] at hsub ⊢
                  have hnil := List.eq_nil_of_sublist_nil hsub
                  rw [hnil]
                  simpa using hsub1
              | some g2 =>
                  cases hrest : resolveAll ex lo hi with
                  | error e => rw [hrest] at h2; simp at h2
                  | ok gs2' =>
                      rw [hrest] at h2
                      injection h2 with h2
                      subst h2
                      obtain ⟨gs1', hg1, hsub1⟩ := ih hlo hhi hrest
                      rw [hg1]
                      refine ⟨g1 :: gs1', rfl, ?_⟩
                      obtain ⟨ds1, p1⟩ := g1
                      obtain ⟨ds2, p2⟩ := g2
                      simp only [flatPairs, contribPairs] at hsub ⊢
                      exact hsub.append hsub1

theorem getSpecialOffdays_narrow {cal : Calendar} {fuel : Nat} {lo hi d : Int}
    {S2 : List Int}
    (hlo : lo ≤ d) (hhi : d ≤ hi)
    (h2 : cal.getSpecialOffdays fuel lo hi = .ok S2) :
    ∃ S1, cal.getSpecialOffdays fuel d d = .ok S1 ∧
      (∀ x : Int, blockedB cal.dow S1 x = true → blockedB cal.dow S2 x = true) := by
  unfold Calendar.getSpecialOffdays at h2 ⊢
  cases hra : resolveAll cal.exclude lo hi with
  | error e => rw [hra] at h2; simp at h2
  | ok gs2 =>
      rw [hra] at h2
      obtain ⟨gs1, hra1, hsub⟩ := resolveAll_narrow hlo hhi hra
      rw [hra1]
      unfold adjustSpecialOffdays at h2 ⊢
      exact foldOccs_sim hsub (fun x h => h) h2

/-- C2: every date returned by `date_range(from, to)` forms a strictly
ascending (hence duplicate-free) sequence, lies in `[from, to]`, and is not an
off day of the same calendar (`is_offday` — computed over the one-day window —
returns `false` on it, with the same fuel, and in particular without panicking
or exhausting the fuel). -/
theorem working_days_in_range_spec (cal : Calendar) (fuel : Nat) (lo hi : Int)
    (result : List Int) (_hle : lo ≤ hi)
    (h : cal.dateRange fuel lo hi = .ok result) :
    result.Pairwise (· < ·) ∧
      ∀ d ∈ result, lo ≤ d ∧ d ≤ hi ∧ cal.isOffday fuel d = .ok false := by
  unfold Calendar.dateRange at h
  cases hg : cal.getSpecialOffdays fuel lo hi with
  | error e => rw [hg] at h; simp at h
  | ok S2 =>
      rw [hg] at h
      injection h with h
      subst h
      constructor
      · exact (intRange_pairwise _ _).sublist
          ((List.filter_sublist _).trans (List.filter_sublist _))
      · intro d hd
        rw [List.mem_filter] at hd
        obtain ⟨hd1, hdlo⟩ := hd
        rw [List.mem_filter] at hd1
        obtain ⟨hdmem, hdp⟩ := hd1
        have hdlo' : lo ≤ d := by simpa using hdlo
        have hdhi : d ≤ hi := (mem_intRange.mp hdmem).2
        have hw : weekdayOf d ∈ cal.dow := by
          have := hdp
          simp only [Bool.and_eq_true, decide_eq_true_eq] at this
          exact this.1
        have hnm : d ∉ S2 := by
          have := hdp
          simp only [Bool.and_eq_true, Bool.not_eq_true', decide_eq_false_iff_not] at this
          exact this.2
        refine ⟨hdlo', hdhi, ?_⟩
        unfold Calendar.isOffday
        rw [if_neg (by simp [hw])]
        obtain ⟨S1, hS1, himp⟩ := getSpecialOffdays_narrow hdlo' hdhi hg
        rw [hS1]
        have hd1 : d ∉ S1 := by
          intro hmem
          have hb2 := himp d (by simp [blockedB, hmem])
          simp only [blockedB, Bool.or_eq_true, Bool.not_eq_true',
            decide_eq_false_iff_not, decide_eq_true_eq] at hb2
          rcases hb2 with hb2 | hb2
          · exact hb2 hw
          · exact hnm hb2
        simp [hd1]

/-- Concrete instance of `working_days_in_range_spec`: `xmasCalendar` over
2021-12-27 … 2021-12-31 (the three working days Dec 29–31). -/
theorem working_days_in_range_spec_witness :
    ([toDays 2021 12 29, toDays 2021 12 30, toDays 2021 12 31] : List Int).Pairwise (· < ·) ∧
      ∀ d ∈ ([toDays 2021 12 29, toDays 2021 12 30, toDays 2021 12 31] : List Int),
        toDays 2021 12 27 ≤ d ∧ d ≤ toDays 2021 12 31 ∧
          xmasCalendar.isOffday 16 d = .ok false :=
  working_days_in_range_spec xmasCalendar 16 (toDays 2021 12 27) (toDays 2021 12 31)
    [toDays 2021 12 29, toDays 2021 12 30, toDays 2021 12 31] (by decide) (by rfl)
